import Mathlib

/-!
Shallow embedding of the chess move-generation core of the repository.

Source files embedded here:
  * frontend/src/lib/types/chess.ts          (ChessPiece, ChessSquare)
  * frontend/src/lib/services/chessMoves.ts  (getPossibleMoves and helpers)
  * the frontend ChessService.parseFEN board codec

Modelling conventions:
  * A destination move is returned by the source as a two-character string
    "<file><rank>"; since every produced file is a single letter and every
    produced rank a single digit this formatting is injective, and we model a
    move as the pair (file character, rank integer).
  * JavaScript `Array.prototype.indexOf` returns -1 on a miss; we model the
    file-index as an `Int` with the same convention.
  * `files[i]` for an out-of-range JS index is `undefined`, which matches no
    square's `file` field; we model it by the sentinel character '?', which
    likewise matches no file of any square a codec-produced board contains.
  * `String.prototype.split(sep)` for a single-character separator is modelled
    structurally on the character list of the string (`splitChar`).
  * The `while` loops of the sliding-piece generators step one file/rank unit
    per iteration towards the board edge, so they run at most 8 iterations
    while inside the board; they are modelled with a fuel of 8, which the
    `mem_castRay` characterisation below treats exactly.
-/

namespace Chess

inductive Color where
  | white
  | black
deriving DecidableEq, Fintype

inductive PieceType where
  | pawn
  | rook
  | knight
  | bishop
  | queen
  | king
deriving DecidableEq, Fintype

structure ChessPiece where
  type : PieceType
  color : Color
deriving DecidableEq

structure ChessSquare where
  file : Char
  rank : Int
  piece : Option ChessPiece
deriving DecidableEq

abbrev Board := List (List ChessSquare)

abbrev Move := Char × Int

/-- `const files = ['a','b','c','d','e','f','g','h'];` -/
def files : List Char := ['a', 'b', 'c', 'd', 'e', 'f', 'g', 'h']

/-- JS `files.indexOf(c)`: index of `c`, or -1 when absent. -/
def indexOfAux : List Char → Char → Int → Int
  | [], _, _ => -1
  | x :: xs, c, i => if x = c then i else indexOfAux xs c (i + 1)

def fileIndexOf (c : Char) : Int := indexOfAux files c 0

/-- JS `files[i]`: the file letter for an in-range index; an out-of-range JS
index yields `undefined`, modelled by the sentinel '?' (not a file letter). -/
def filesGet (i : Int) : Char :=
  if 0 ≤ i ∧ i < 8 then files.getD i.toNat '?' else '?'

/-- `getSquare(board, file, rank)`: row-major scan returning the first square
whose file and rank match, or null. -/
def getSquare (board : Board) (file : Char) (rank : Int) : Option ChessSquare :=
  board.flatten.find? (fun sq => sq.file == file && sq.rank == rank)

/-- `isEmpty(board, file, rank)`: `!!sq && !sq.piece`. -/
def isEmptyB (board : Board) (file : Char) (rank : Int) : Bool :=
  match getSquare board file rank with
  | some sq => sq.piece.isNone
  | none => false

/-- Body of one step of the knight / king offset loops: bounds check, square
lookup (`continue` on null), and the friendly-occupancy filter. -/
def stepTarget (board : Board) (color : Color) (f r : Int) : List Move :=
  if 0 ≤ f ∧ f < 8 ∧ 1 ≤ r ∧ r ≤ 8 then
    match getSquare board (filesGet f) r with
    | none => []
    | some dest =>
      match dest.piece with
      | none => [(filesGet f, r)]
      | some p => if p.color ≠ color then [(filesGet f, r)] else []
  else []

/-- The `while` loop of the sliding-piece generators, starting at file index
`f` and rank `r` and stepping by `(df, dr)`.  The fuel bounds the number of
iterations; the generators call it with fuel 8, which is never exhausted
while the loop condition still holds (see `mem_castRay`). -/
def castRay (board : Board) (color : Color) (df dr : Int) :
    Nat → Int → Int → List Move
  | 0, _, _ => []
  | fuel + 1, f, r =>
    if 0 ≤ f ∧ f < 8 ∧ 1 ≤ r ∧ r ≤ 8 then
      match getSquare board (filesGet f) r with
      | none => []
      | some dest =>
        match dest.piece with
        | none => (filesGet f, r) :: castRay board color df dr fuel (f + df) (r + dr)
        | some p => if p.color ≠ color then [(filesGet f, r)] else []
    else []

def bishopDirections : List (Int × Int) := [(1, 1), (1, -1), (-1, 1), (-1, -1)]

def rookDirections : List (Int × Int) := [(1, 0), (-1, 0), (0, 1), (0, -1)]

/-- `getBishopMoves`: ray casts along the four diagonal directions. -/
def getBishopMoves (board : Board) (square : ChessSquare) (color : Color) : List Move :=
  bishopDirections.flatMap fun d =>
    castRay board color d.1 d.2 8 (fileIndexOf square.file + d.1) (square.rank + d.2)

/-- `getRookMoves`: ray casts along the four orthogonal directions. -/
def getRookMoves (board : Board) (square : ChessSquare) (color : Color) : List Move :=
  rookDirections.flatMap fun d =>
    castRay board color d.1 d.2 8 (fileIndexOf square.file + d.1) (square.rank + d.2)

/-- `getQueenMoves`: bishop moves followed by rook moves. -/
def getQueenMoves (board : Board) (square : ChessSquare) (color : Color) : List Move :=
  getBishopMoves board square color ++ getRookMoves board square color

def knightOffsets : List (Int × Int) :=
  [(1, 2), (2, 1), (2, -1), (1, -2), (-1, -2), (-2, -1), (-2, 1), (-1, 2)]

/-- `getKnightMoves`: the eight fixed offsets with the shared step body. -/
def getKnightMoves (board : Board) (square : ChessSquare) (color : Color) : List Move :=
  knightOffsets.flatMap fun d =>
    stepTarget board color (fileIndexOf square.file + d.1) (square.rank + d.2)

/-- `const dir = color === 'white' ? 1 : -1;` -/
def pawnDir (color : Color) : Int := if color = Color.white then 1 else -1

/-- `const startRank = color === 'white' ? 2 : 7;` -/
def pawnStartRank (color : Color) : Int := if color = Color.white then 2 else 7

/-- `getPawnMoves`: forward pushes then the two diagonal captures. -/
def getPawnMoves (board : Board) (square : ChessSquare) (color : Color) : List Move :=
  let fileIdx := fileIndexOf square.file
  let rankIdx := square.rank
  let dir : Int := pawnDir color
  let startRank : Int := pawnStartRank color
  let forward : List Move :=
    match getSquare board (filesGet fileIdx) (rankIdx + dir) with
    | some oneForward =>
      if oneForward.piece = none then
        (filesGet fileIdx, rankIdx + dir) ::
          (if rankIdx = startRank then
            match getSquare board (filesGet fileIdx) (rankIdx + 2 * dir) with
            | some twoForward =>
              if twoForward.piece = none then [(filesGet fileIdx, rankIdx + 2 * dir)]
              else []
            | none => []
          else [])
      else []
    | none => []
  let diagonals : List Move :=
    ([-1, 1] : List Int).flatMap fun df =>
      let f := fileIdx + df
      if 0 ≤ f ∧ f < 8 then
        match getSquare board (filesGet f) (rankIdx + dir) with
        | some diag =>
          match diag.piece with
          | some p => if p.color ≠ color then [(filesGet f, rankIdx + dir)] else []
          | none => []
        | none => []
      else []
  forward ++ diagonals

/-- The nested `for df / for dr` loops of `getKingMoves` (the non-castling
part), skipping the (0,0) offset. -/
def kingAdjacentMoves (board : Board) (square : ChessSquare) (color : Color) : List Move :=
  ([-1, 0, 1] : List Int).flatMap fun df =>
    ([-1, 0, 1] : List Int).flatMap fun dr =>
      if df = 0 ∧ dr = 0 then []
      else stepTarget board color (fileIndexOf square.file + df) (square.rank + dr)

/-- JS `str.split(sep)` for a single-character separator, on the character
list of the string. -/
def splitChar (sep : Char) : List Char → List (List Char)
  | [] => [[]]
  | c :: rest =>
    match splitChar sep rest with
    | [] => [[c]]
    | grp :: grps => if c = sep then [] :: grp :: grps else (c :: grp) :: grps

/-- `getPossibleMoves(board, square)` with the `fen` argument omitted: the
king case then adds no castling moves, so the dispatch bottoms out in the
plain per-piece rules.  `isAttacked` (below) scans with exactly this
function; `getPossibleMoves_no_fen` proves it equal to
`getPossibleMoves board square none`. -/
def movesNoCastle (board : Board) (square : ChessSquare) : List Move :=
  match square.piece with
  | none => []
  | some p =>
    match p.type with
    | PieceType.bishop => getBishopMoves board square p.color
    | PieceType.knight => getKnightMoves board square p.color
    | PieceType.pawn => getPawnMoves board square p.color
    | PieceType.queen => getQueenMoves board square p.color
    | PieceType.king => kingAdjacentMoves board square p.color
    | PieceType.rook => getRookMoves board square p.color

/-- `isAttacked(board, file, rank, byColor)`: scans every square; for each
piece of `byColor` it calls `getPossibleMoves(board, sq)` — with the `fen`
argument omitted, hence `movesNoCastle` — and tests membership of the
target square. -/
def isAttacked (board : Board) (file : Char) (rank : Int) (byColor : Color) : Bool :=
  board.flatten.any fun sq =>
    match sq.piece with
    | some p =>
      if p.color = byColor then (movesNoCastle board sq).contains (file, rank)
      else false
    | none => false

/-- `getCastlingMoves`: castling rights are the third whitespace field of the
FEN; each of the four castling pushes is guarded by the right, emptiness of
the between squares, and non-attack of origin, transit and destination. -/
def getCastlingMoves (board : Board) (square : ChessSquare) (color : Color)
    (fen : String) : List Move :=
  let parts := splitChar ' ' fen.data
  let castling : List Char := parts.getD 2 []
  let white : List Move :=
    if color = Color.white ∧ square.file = 'e' ∧ square.rank = 1 then
      (if castling.contains 'K' &&
          isEmptyB board 'f' 1 && isEmptyB board 'g' 1 &&
          !isAttacked board 'e' 1 Color.black &&
          !isAttacked board 'f' 1 Color.black &&
          !isAttacked board 'g' 1 Color.black then [(('g' : Char), (1 : Int))] else []) ++
      (if castling.contains 'Q' &&
          isEmptyB board 'd' 1 && isEmptyB board 'c' 1 && isEmptyB board 'b' 1 &&
          !isAttacked board 'e' 1 Color.black &&
          !isAttacked board 'd' 1 Color.black &&
          !isAttacked board 'c' 1 Color.black then [(('c' : Char), (1 : Int))] else [])
    else []
  let black : List Move :=
    if color = Color.black ∧ square.file = 'e' ∧ square.rank = 8 then
      (if castling.contains 'k' &&
          isEmptyB board 'f' 8 && isEmptyB board 'g' 8 &&
          !isAttacked board 'e' 8 Color.white &&
          !isAttacked board 'f' 8 Color.white &&
          !isAttacked board 'g' 8 Color.white then [(('g' : Char), (8 : Int))] else []) ++
      (if castling.contains 'q' &&
          isEmptyB board 'd' 8 && isEmptyB board 'c' 8 && isEmptyB board 'b' 8 &&
          !isAttacked board 'e' 8 Color.white &&
          !isAttacked board 'd' 8 Color.white &&
          !isAttacked board 'c' 8 Color.white then [(('c' : Char), (8 : Int))] else [])
    else []
  white ++ black

/-- `getKingMoves`: the 8 adjacent squares, plus castling when a truthy
(non-empty) FEN string was supplied. -/
def getKingMoves (board : Board) (square : ChessSquare) (color : Color)
    (fen : Option String) : List Move :=
  kingAdjacentMoves board square color ++
    match fen with
    | some s => if s.data = [] then [] else getCastlingMoves board square color s
    | none => []

/-- `getPossibleMoves(board, square, fen?)`: empty when the square holds no
piece, otherwise dispatch on the piece type.  (The JS `default` branch is
unreachable: the type enum is closed.) -/
def getPossibleMoves (board : Board) (square : ChessSquare)
    (fen : Option String) : List Move :=
  match square.piece with
  | none => []
  | some p =>
    match p.type with
    | PieceType.bishop => getBishopMoves board square p.color
    | PieceType.knight => getKnightMoves board square p.color
    | PieceType.pawn => getPawnMoves board square p.color
    | PieceType.queen => getQueenMoves board square p.color
    | PieceType.king => getKingMoves board square p.color fen
    | PieceType.rook => getRookMoves board square p.color

/-- The piece-letter switch of `ChessService.parseFEN` ('p' and the JS
`default` branch both yield pawn). -/
def charPieceType (c : Char) : PieceType :=
  if c = 'k' then PieceType.king
  else if c = 'q' then PieceType.queen
  else if c = 'r' then PieceType.rook
  else if c = 'b' then PieceType.bishop
  else if c = 'n' then PieceType.knight
  else PieceType.pawn

/-- The per-rank character loop of `parseFEN`: a digit '1'..'8' emits that
many empty squares, any other character one piece square; `fileIndex`
advances accordingly.  `rankValue` is `8 - rankIndex`. -/
def decodeRankAux (rankValue : Int) : List Char → Nat → List ChessSquare
  | [], _ => []
  | ch :: rest, fi =>
    if '1' ≤ ch ∧ ch ≤ '8' then
      let emptyCount := ch.toNat - 48
      ((List.range emptyCount).map fun i =>
        ChessSquare.mk (Char.ofNat (97 + fi + i)) rankValue none) ++
        decodeRankAux rankValue rest (fi + emptyCount)
    else
      ChessSquare.mk (Char.ofNat (97 + fi)) rankValue
          (some (ChessPiece.mk (charPieceType ch.toLower)
            (if ch.toUpper = ch then Color.white else Color.black))) ::
        decodeRankAux rankValue rest (fi + 1)

/-- `ChessService.parseFEN`: keeps only the first whitespace field, splits it
on '/', and decodes each rank group top-to-bottom as ranks 8 down to 1.  No
validation of the field count or the rank-group count is performed. -/
def parseFEN (fen : String) : Board :=
  let position := (splitChar ' ' fen.data).headD []
  let ranks := splitChar '/' position
  ranks.enum.map fun p => decodeRankAux (8 - (p.1 : Int)) p.2 0

/-- The standard starting position, six fields. -/
def startFen : String := "rnbqkbnr/pppppppp/8/8/8/8/PPPPPPPP/RNBQKBNR w KQkq - 0 1"

def startBoard : Board := parseFEN startFen

/-- The starting position after the advance e2-e3. -/
def pawnE3Board : Board := parseFEN "rnbqkbnr/pppppppp/8/8/8/4P3/PPPP1PPP/RNBQKBNR w KQkq - 0 1"

/-- A board whose only piece is a black rook on e8. -/
def rookE8Board : Board := parseFEN "4r3/8/8/8/8/8/8/8"

/-- A board whose only piece is a black pawn on e2. -/
def blackPawnE2Board : Board := parseFEN "8/8/8/8/8/8/4p3/8"

/-- Test-harness helper: put `p` on the square(s) matching `file`/`rank`. -/
def setPieceAt (board : Board) (file : Char) (rank : Int) (p : Option ChessPiece) : Board :=
  board.map fun row => row.map fun sq =>
    if sq.file = file ∧ sq.rank = rank then ChessSquare.mk sq.file sq.rank p else sq

/-!  ## Statement vocabulary  -/

/-- The board model of the spec: every square entry carries a file a–h and a
rank 1–8 (the source codec only ever constructs such squares). -/
def validBoard (b : Board) : Prop :=
  ∀ sq ∈ b.flatten, sq.file ∈ files ∧ 1 ≤ sq.rank ∧ sq.rank ≤ 8

instance (b : Board) : Decidable (validBoard b) := by
  unfold validBoard
  infer_instance

/-- A well-formed destination for a piece of color `c`: on the board (file
a–h, rank 1–8) and not occupied by a friendly piece (per the board lookup
`getSquare`). -/
def destOk (b : Board) (c : Color) (m : Move) : Prop :=
  m.1 ∈ files ∧ 1 ≤ m.2 ∧ m.2 ≤ 8 ∧
    ∀ sq p, getSquare b m.1 m.2 = some sq → sq.piece = some p → p.color ≠ c

/-- The bounds test of the generators' loops. -/
def inBounds (f r : Int) : Prop := 0 ≤ f ∧ f < 8 ∧ 1 ≤ r ∧ r ≤ 8

/-- File index `f` / rank `r` names a square present on the board and empty. -/
def presentEmptyAt (b : Board) (f r : Int) : Prop :=
  ∃ sq, getSquare b (filesGet f) r = some sq ∧ sq.piece = none

/-- File index `f` / rank `r` names a square holding an enemy of color `c`. -/
def enemyAt (b : Board) (c : Color) (f r : Int) : Prop :=
  ∃ sq p, getSquare b (filesGet f) r = some sq ∧ sq.piece = some p ∧ p.color ≠ c

/-!  ## Lookup lemmas  -/

lemma getSquare_eq_some {b : Board} {ch : Char} {r : Int} {sq : ChessSquare}
    (h : getSquare b ch r = some sq) : sq ∈ b.flatten ∧ sq.file = ch ∧ sq.rank = r := by
  have hmem := List.mem_of_find?_eq_some h
  have hp := List.find?_some h
  simp only [Bool.and_eq_true, beq_iff_eq] at hp
  exact ⟨hmem, hp.1, hp.2⟩

/-- Everything pushed by the generators was pushed after a successful,
friendly-free `getSquare` lookup at exactly the pushed coordinates; on a
valid board this yields `destOk`. -/
lemma destOk_of_found {b : Board} {c : Color} {ch : Char} {r : Int} {dest : ChessSquare}
    (hb : validBoard b) (h : getSquare b ch r = some dest)
    (hp : ∀ p, dest.piece = some p → p.color ≠ c) : destOk b c (ch, r) := by
  obtain ⟨hmem, hf, hr⟩ := getSquare_eq_some h
  obtain ⟨hfl, h1, h2⟩ := hb dest hmem
  refine ⟨hf ▸ hfl, hr ▸ h1, hr ▸ h2, ?_⟩
  intro sq p hgs hpp
  rw [h] at hgs
  cases hgs
  exact hp p hpp

lemma isEmptyB_true {b : Board} {ch : Char} {r : Int} (h : isEmptyB b ch r = true) :
    ∃ sq, getSquare b ch r = some sq ∧ sq.piece = none := by
  unfold isEmptyB at h
  cases hgs : getSquare b ch r with
  | none => rw [hgs] at h; cases h
  | some sq =>
    rw [hgs] at h
    exact ⟨sq, rfl, Option.isNone_iff_eq_none.mp h⟩

/-!  ## `destOk` for every push site  -/

lemma stepTarget_destOk {b : Board} {c : Color} {f r : Int} {m : Move}
    (hb : validBoard b) (h : m ∈ stepTarget b c f r) : destOk b c m := by
  unfold stepTarget at h
  split at h
  · split at h
    · cases h
    · rename_i dest hgs
      split at h
      · rename_i hpc
        rcases List.mem_singleton.mp h with rfl
        exact destOk_of_found hb hgs (by intro p hp; rw [hpc] at hp; cases hp)
      · rename_i p hpc
        split at h
        · rcases List.mem_singleton.mp h with rfl
          refine destOk_of_found hb hgs ?_
          intro q hq
          rw [hpc] at hq
          cases hq
          assumption
        · cases h
  · cases h

lemma castRay_destOk {b : Board} {c : Color} {df dr : Int} (hb : validBoard b) :
    ∀ (fuel : Nat) (f r : Int) (m : Move), m ∈ castRay b c df dr fuel f r → destOk b c m := by
  intro fuel
  induction fuel with
  | zero => intro f r m h; cases h
  | succ n ih =>
    intro f r m h
    rw [castRay] at h
    split at h
    · split at h
      · cases h
      · rename_i dest hgs
        split at h
        · rename_i hpc
          rcases List.mem_cons.mp h with rfl | htail
          · exact destOk_of_found hb hgs (by intro p hp; rw [hpc] at hp; cases hp)
          · exact ih _ _ _ htail
        · rename_i p hpc
          split at h
          · rcases List.mem_singleton.mp h with rfl
            refine destOk_of_found hb hgs ?_
            intro q hq
            rw [hpc] at hq
            cases hq
            assumption
          · cases h
    · cases h

lemma getBishopMoves_destOk {b : Board} {sq : ChessSquare} {c : Color} {m : Move}
    (hb : validBoard b) (h : m ∈ getBishopMoves b sq c) : destOk b c m := by
  unfold getBishopMoves at h
  rw [List.mem_flatMap] at h
  obtain ⟨d, _, hmem⟩ := h
  exact castRay_destOk hb _ _ _ _ hmem

lemma getRookMoves_destOk {b : Board} {sq : ChessSquare} {c : Color} {m : Move}
    (hb : validBoard b) (h : m ∈ getRookMoves b sq c) : destOk b c m := by
  unfold getRookMoves at h
  rw [List.mem_flatMap] at h
  obtain ⟨d, _, hmem⟩ := h
  exact castRay_destOk hb _ _ _ _ hmem

lemma getQueenMoves_destOk {b : Board} {sq : ChessSquare} {c : Color} {m : Move}
    (hb : validBoard b) (h : m ∈ getQueenMoves b sq c) : destOk b c m := by
  rcases List.mem_append.mp h with h | h
  · exact getBishopMoves_destOk hb h
  · exact getRookMoves_destOk hb h

lemma getKnightMoves_destOk {b : Board} {sq : ChessSquare} {c : Color} {m : Move}
    (hb : validBoard b) (h : m ∈ getKnightMoves b sq c) : destOk b c m := by
  unfold getKnightMoves at h
  rw [List.mem_flatMap] at h
  obtain ⟨d, _, hmem⟩ := h
  exact stepTarget_destOk hb hmem

lemma kingAdjacentMoves_destOk {b : Board} {sq : ChessSquare} {c : Color} {m : Move}
    (hb : validBoard b) (h : m ∈ kingAdjacentMoves b sq c) : destOk b c m := by
  unfold kingAdjacentMoves at h
  rw [List.mem_flatMap] at h
  obtain ⟨df, _, h⟩ := h
  rw [List.mem_flatMap] at h
  obtain ⟨dr, _, h⟩ := h
  split at h
  · cases h
  · exact stepTarget_destOk hb h

lemma getPawnMoves_destOk {b : Board} {sq : ChessSquare} {c : Color} {m : Move}
    (hb : validBoard b) (h : m ∈ getPawnMoves b sq c) : destOk b c m := by
  simp only [getPawnMoves] at h
  rw [List.mem_append] at h
  rcases h with h | h
  · split at h
    · rename_i oneF hgs1
      split at h
      · rename_i hnone1
        rcases List.mem_cons.mp h with rfl | h2
        · exact destOk_of_found hb hgs1 (by intro p hp; rw [hnone1] at hp; cases hp)
        · split at h2
          · split at h2
            · rename_i twoF hgs2
              split at h2
              · rename_i hnone2
                rcases List.mem_singleton.mp h2 with rfl
                exact destOk_of_found hb hgs2 (by intro p hp; rw [hnone2] at hp; cases hp)
              · cases h2
            · cases h2
          · cases h2
      · cases h
    · cases h
  · rw [List.mem_flatMap] at h
    obtain ⟨df, _, h⟩ := h
    split at h
    · split at h
      · rename_i diag hgs
        split at h
        · rename_i p hpc
          split at h
          · rcases List.mem_singleton.mp h with rfl
            refine destOk_of_found hb hgs ?_
            intro q hq
            rw [hpc] at hq
            cases hq
            assumption
          · cases h
        · cases h
      · cases h
    · cases h

lemma getCastlingMoves_destOk {b : Board} {sq : ChessSquare} {c : Color} {fen : String}
    {m : Move} (hb : validBoard b) (h : m ∈ getCastlingMoves b sq c fen) : destOk b c m := by
  simp only [getCastlingMoves] at h
  rw [List.mem_append] at h
  have empt : ∀ ch : Char, ∀ r : Int, isEmptyB b ch r = true → destOk b c (ch, r) := by
    intro ch r he
    obtain ⟨sq0, hgs, hnone⟩ := isEmptyB_true he
    exact destOk_of_found hb hgs (by intro p hp; rw [hnone] at hp; cases hp)
  rcases h with h | h
  · split at h
    · rcases List.mem_append.mp h with h | h
      · split at h
        · rename_i hguard
          simp only [Bool.and_eq_true] at hguard
          rcases List.mem_singleton.mp h with rfl
          exact empt 'g' 1 hguard.1.1.1.2
        · cases h
      · split at h
        · rename_i hguard
          simp only [Bool.and_eq_true] at hguard
          rcases List.mem_singleton.mp h with rfl
          exact empt 'c' 1 hguard.1.1.1.1.2
        · cases h
    · cases h
  · split at h
    · rcases List.mem_append.mp h with h | h
      · split at h
        · rename_i hguard
          simp only [Bool.and_eq_true] at hguard
          rcases List.mem_singleton.mp h with rfl
          exact empt 'g' 8 hguard.1.1.1.2
        · cases h
      · split at h
        · rename_i hguard
          simp only [Bool.and_eq_true] at hguard
          rcases List.mem_singleton.mp h with rfl
          exact empt 'c' 8 hguard.1.1.1.1.2
        · cases h
    · cases h

lemma getKingMoves_destOk {b : Board} {sq : ChessSquare} {c : Color} {fen : Option String}
    {m : Move} (hb : validBoard b) (h : m ∈ getKingMoves b sq c fen) : destOk b c m := by
  cases fen with
  | none =>
    simp only [getKingMoves, List.append_nil] at h
    exact kingAdjacentMoves_destOk hb h
  | some s =>
    simp only [getKingMoves] at h
    rcases List.mem_append.mp h with h | h
    · exact kingAdjacentMoves_destOk hb h
    · split at h
      · cases h
      · exact getCastlingMoves_destOk hb h

/-- C1: on a valid board, every destination produced by the move generator
lies on the board (file a–h, rank 1–8) and is not occupied by a piece of the
moving piece's own color, for every piece type. -/
theorem generator_dest_ok : ∀ (b : Board) (sq : ChessSquare) (fen : Option String)
    (pc : ChessPiece), validBoard b → sq.piece = some pc →
    ∀ m ∈ getPossibleMoves b sq fen, destOk b pc.color m := by
  intro b sq fen pc hb hsq m hm
  obtain ⟨f, r, pc'⟩ := sq
  simp only at hsq
  subst hsq
  simp only [getPossibleMoves] at hm
  cases hpt : pc.type <;> rw [hpt] at hm
  · exact getPawnMoves_destOk hb hm
  · exact getRookMoves_destOk hb hm
  · exact getKnightMoves_destOk hb hm
  · exact getBishopMoves_destOk hb hm
  · exact getQueenMoves_destOk hb hm
  · exact getKingMoves_destOk hb hm

/-- Witness for C1 at the starting position: e3 for the e2 pawn. -/
theorem generator_dest_ok_witness : destOk startBoard Color.white ('e', 3) :=
  generator_dest_ok startBoard (ChessSquare.mk 'e' 2 (some (ChessPiece.mk PieceType.pawn Color.white)))
    none (ChessPiece.mk PieceType.pawn Color.white) (by decide) rfl ('e', 3) (by decide)

/-!  ## Ray characterisation (sliding pieces)  -/

lemma presentEmptyAt_iff {b : Board} {f r : Int} {dest : ChessSquare}
    (hgs : getSquare b (filesGet f) r = some dest) :
    presentEmptyAt b f r ↔ dest.piece = none := by
  constructor
  · rintro ⟨sq, hs, hn⟩
    rw [hgs] at hs
    cases hs
    exact hn
  · intro hn
    exact ⟨dest, hgs, hn⟩

lemma enemyAt_iff {b : Board} {c : Color} {f r : Int} {dest : ChessSquare} {p : ChessPiece}
    (hgs : getSquare b (filesGet f) r = some dest) (hpc : dest.piece = some p) :
    enemyAt b c f r ↔ p.color ≠ c := by
  constructor
  · rintro ⟨sq, q, hs, hq, hne⟩
    rw [hgs] at hs
    cases hs
    rw [hpc] at hq
    cases hq
    exact hne
  · intro hne
    exact ⟨dest, p, hgs, hpc, hne⟩

lemma not_presentEmptyAt {b : Board} {f r : Int}
    (hgs : getSquare b (filesGet f) r = none) : ¬ presentEmptyAt b f r := by
  rintro ⟨sq, hs, _⟩
  rw [hgs] at hs
  cases hs

lemma not_enemyAt {b : Board} {c : Color} {f r : Int}
    (hgs : getSquare b (filesGet f) r = none) : ¬ enemyAt b c f r := by
  rintro ⟨sq, q, hs, _, _⟩
  rw [hgs] at hs
  cases hs

/-- Index shift along a ray. -/
lemma shiftPos (x d : Int) (j : Nat) : x + d + (j : Int) * d = x + ((j + 1 : Nat) : Int) * d := by
  push_cast
  ring

/-- Exact membership characterisation of the ray loop: the k-th step from the
loop entry is produced iff every earlier step was an in-bounds empty square
and the k-th step is in bounds and empty or enemy-occupied (and the fuel, 8
at every call site, has not run out first). -/
lemma mem_castRay {b : Board} {c : Color} {df dr : Int} :
    ∀ (fuel : Nat) (f r : Int) (m : Move),
      m ∈ castRay b c df dr fuel f r ↔
        ∃ k : Nat, k < fuel ∧
          (∀ j : Nat, j < k → inBounds (f + j * df) (r + j * dr) ∧
            presentEmptyAt b (f + j * df) (r + j * dr)) ∧
          inBounds (f + k * df) (r + k * dr) ∧
          (presentEmptyAt b (f + k * df) (r + k * dr) ∨
            enemyAt b c (f + k * df) (r + k * dr)) ∧
          m = (filesGet (f + k * df), r + k * dr) := by
  intro fuel
  induction fuel with
  | zero =>
    intro f r m
    simp [castRay]
  | succ n ih =>
    intro f r m
    rw [castRay]
    by_cases hbnd : 0 ≤ f ∧ f < 8 ∧ 1 ≤ r ∧ r ≤ 8
    · rw [if_pos hbnd]
      cases hgs : getSquare b (filesGet f) r with
      | none =>
        simp only [hgs, List.not_mem_nil, false_iff]
        rintro ⟨k, hk, hint, hbk, hlast, hm⟩
        cases k with
        | zero =>
          simp only [Nat.cast_zero, zero_mul, add_zero] at hlast
          rcases hlast with hpe | hen
          · exact not_presentEmptyAt hgs hpe
          · exact not_enemyAt hgs hen
        | succ k' =>
          have h0 := hint 0 (Nat.succ_pos k')
          simp only [Nat.cast_zero, zero_mul, add_zero] at h0
          exact not_presentEmptyAt hgs h0.2
      | some dest =>
        cases hpc : dest.piece with
        | none =>
          simp only [hgs, hpc, List.mem_cons]
          rw [ih (f + df) (r + dr) m]
          constructor
          · rintro (rfl | ⟨k, hk, hint, hbk, hlast, hm⟩)
            · refine ⟨0, Nat.succ_pos n, fun j hj => absurd hj (Nat.not_lt_zero j), ?_, ?_, ?_⟩
              · simp only [Nat.cast_zero, zero_mul, add_zero]
                exact hbnd
              · simp only [Nat.cast_zero, zero_mul, add_zero]
                exact Or.inl ⟨dest, hgs, hpc⟩
              · simp only [Nat.cast_zero, zero_mul, add_zero]
            · refine ⟨k + 1, by omega, ?_, ?_, ?_, ?_⟩
              · intro j hj
                cases j with
                | zero =>
                  constructor
                  · simp only [Nat.cast_zero, zero_mul, add_zero]
                    exact hbnd
                  · simp only [Nat.cast_zero, zero_mul, add_zero]
                    exact ⟨dest, hgs, hpc⟩
                | succ j' =>
                  rw [← shiftPos f df j', ← shiftPos r dr j']
                  exact hint j' (by omega)
              · rw [← shiftPos f df k, ← shiftPos r dr k]
                exact hbk
              · rw [← shiftPos f df k, ← shiftPos r dr k]
                exact hlast
              · rw [← shiftPos f df k, ← shiftPos r dr k]
                exact hm
          · rintro ⟨k, hk, hint, hbk, hlast, hm⟩
            cases k with
            | zero =>
              left
              simp only [Nat.cast_zero, zero_mul, add_zero] at hm
              exact hm
            | succ k' =>
              right
              refine ⟨k', by omega, ?_, ?_, ?_, ?_⟩
              · intro j hj
                rw [shiftPos f df j, shiftPos r dr j]
                exact hint (j + 1) (by omega)
              · rw [shiftPos f df k', shiftPos r dr k']
                exact hbk
              · rw [shiftPos f df k', shiftPos r dr k']
                exact hlast
              · rw [shiftPos f df k', shiftPos r dr k']
                exact hm
        | some p =>
          simp only [hgs, hpc]
          by_cases hcol : p.color ≠ c
          · rw [if_pos hcol]
            simp only [List.mem_singleton]
            constructor
            · rintro rfl
              refine ⟨0, Nat.succ_pos n, fun j hj => absurd hj (Nat.not_lt_zero j), ?_, ?_, ?_⟩
              · simp only [Nat.cast_zero, zero_mul, add_zero]
                exact hbnd
              · simp only [Nat.cast_zero, zero_mul, add_zero]
                exact Or.inr ((enemyAt_iff hgs hpc).mpr hcol)
              · simp only [Nat.cast_zero, zero_mul, add_zero]
            · rintro ⟨k, hk, hint, hbk, hlast, hm⟩
              cases k with
              | zero =>
                simp only [Nat.cast_zero, zero_mul, add_zero] at hm
                exact hm
              | succ k' =>
                have h0 := hint 0 (Nat.succ_pos k')
                simp only [Nat.cast_zero, zero_mul, add_zero] at h0
                have hn0 := (presentEmptyAt_iff hgs).mp h0.2
                rw [hpc] at hn0
                cases hn0
          · rw [if_neg hcol]
            simp only [List.not_mem_nil, false_iff]
            rintro ⟨k, hk, hint, hbk, hlast, hm⟩
            cases k with
            | zero =>
              simp only [Nat.cast_zero, zero_mul, add_zero] at hlast
              rcases hlast with hpe | hen
              · have hn0 := (presentEmptyAt_iff hgs).mp hpe
                rw [hpc] at hn0
                cases hn0
              · exact hcol ((enemyAt_iff hgs hpc).mp hen)
            | succ k' =>
              have h0 := hint 0 (Nat.succ_pos k')
              simp only [Nat.cast_zero, zero_mul, add_zero] at h0
              have hn0 := (presentEmptyAt_iff hgs).mp h0.2
              rw [hpc] at hn0
              cases hn0
    · rw [if_neg hbnd]
      simp only [List.not_mem_nil, false_iff]
      rintro ⟨k, hk, hint, hbk, hlast, hm⟩
      cases k with
      | zero =>
        simp only [Nat.cast_zero, zero_mul, add_zero] at hbk
        exact hbnd hbk
      | succ k' =>
        have h0 := hint 0 (Nat.succ_pos k')
        simp only [Nat.cast_zero, zero_mul, add_zero] at h0
        exact hbnd h0.1

/-- Specification of a ray-casting generator over direction list `dirs`: a
move is produced iff it is the k-th step (k ≥ 1) along one of the directions,
every strictly earlier step is an in-bounds empty square, the k-th step is in
bounds, and the k-th step is empty or holds an enemy piece (so the first
occupied square ends the ray and is included exactly when it is an enemy, and
nothing beyond it or off the board is ever produced). -/
def raySpec (dirs : List (Int × Int)) (gen : Board → ChessSquare → Color → List Move) : Prop :=
  ∀ (b : Board) (sq : ChessSquare) (c : Color) (m : Move),
    m ∈ gen b sq c ↔
      ∃ d ∈ dirs, ∃ k : Nat, 1 ≤ k ∧ k ≤ 8 ∧
        (∀ j : Nat, 1 ≤ j → j < k →
          inBounds (fileIndexOf sq.file + j * d.1) (sq.rank + j * d.2) ∧
          presentEmptyAt b (fileIndexOf sq.file + j * d.1) (sq.rank + j * d.2)) ∧
        inBounds (fileIndexOf sq.file + k * d.1) (sq.rank + k * d.2) ∧
        (presentEmptyAt b (fileIndexOf sq.file + k * d.1) (sq.rank + k * d.2) ∨
          enemyAt b c (fileIndexOf sq.file + k * d.1) (sq.rank + k * d.2)) ∧
        m = (filesGet (fileIndexOf sq.file + k * d.1), sq.rank + k * d.2)

lemma raySpec_flatMap (dirs : List (Int × Int)) :
    raySpec dirs (fun b sq c => dirs.flatMap fun d =>
      castRay b c d.1 d.2 8 (fileIndexOf sq.file + d.1) (sq.rank + d.2)) := by
  intro b sq c m
  rw [List.mem_flatMap]
  constructor
  · rintro ⟨d, hd, hmem⟩
    rw [mem_castRay] at hmem
    obtain ⟨k, hk, hint, hbk, hlast, hm⟩ := hmem
    refine ⟨d, hd, k + 1, by omega, by omega, ?_, ?_, ?_, ?_⟩
    · intro j h1 hj
      obtain ⟨j', rfl⟩ : ∃ j', j = j' + 1 := ⟨j - 1, by omega⟩
      rw [← shiftPos (fileIndexOf sq.file) d.1 j', ← shiftPos sq.rank d.2 j']
      exact hint j' (by omega)
    · rw [← shiftPos (fileIndexOf sq.file) d.1 k, ← shiftPos sq.rank d.2 k]
      exact hbk
    · rw [← shiftPos (fileIndexOf sq.file) d.1 k, ← shiftPos sq.rank d.2 k]
      exact hlast
    · rw [← shiftPos (fileIndexOf sq.file) d.1 k, ← shiftPos sq.rank d.2 k]
      exact hm
  · rintro ⟨d, hd, k, hk1, hk8, hint, hbk, hlast, hm⟩
    refine ⟨d, hd, ?_⟩
    rw [mem_castRay]
    obtain ⟨k', rfl⟩ : ∃ k', k = k' + 1 := ⟨k - 1, by omega⟩
    refine ⟨k', by omega, ?_, ?_, ?_, ?_⟩
    · intro j hj
      rw [shiftPos (fileIndexOf sq.file) d.1 j, shiftPos sq.rank d.2 j]
      exact hint (j + 1) (by omega) (by omega)
    · rw [shiftPos (fileIndexOf sq.file) d.1 k', shiftPos sq.rank d.2 k']
      exact hbk
    · rw [shiftPos (fileIndexOf sq.file) d.1 k', shiftPos sq.rank d.2 k']
      exact hlast
    · rw [shiftPos (fileIndexOf sq.file) d.1 k', shiftPos sq.rank d.2 k']
      exact hm

/-- C3: bishop, rook and queen ray-cast along their fixed directions; each
ray stops at the board edge or at the first occupied square, that square is
included iff it holds an enemy piece, and nothing beyond the first blocker
is produced (queen = bishop directions followed by rook directions). -/
theorem slider_rays_spec :
    raySpec bishopDirections getBishopMoves ∧ raySpec rookDirections getRookMoves ∧
      raySpec (bishopDirections ++ rookDirections) getQueenMoves := by
  refine ⟨raySpec_flatMap bishopDirections, raySpec_flatMap rookDirections, ?_⟩
  intro b sq c m
  have hq : getQueenMoves b sq c =
      (bishopDirections ++ rookDirections).flatMap (fun d =>
        castRay b c d.1 d.2 8 (fileIndexOf sq.file + d.1) (sq.rank + d.2)) := by
    rw [getQueenMoves, getBishopMoves, getRookMoves,
      List.flatMap_append bishopDirections rookDirections]
  rw [hq]
  exact raySpec_flatMap (bishopDirections ++ rookDirections) b sq c m

/-- C7: the queen's destination set is the union (as sets) of the bishop's
and the rook's from the same origin. -/
theorem queen_is_bishop_union_rook :
    ∀ (b : Board) (sq : ChessSquare) (c : Color) (m : Move),
      m ∈ getQueenMoves b sq c ↔ m ∈ getBishopMoves b sq c ∨ m ∈ getRookMoves b sq c := by
  intro b sq c m
  exact List.mem_append

/-- C5: the pawn rule produces forward-by-one iff the square ahead is empty,
forward-by-two only from the start rank (2 white / 7 black) with both squares
empty, diagonal captures iff the diagonal square holds an enemy piece, and
nothing else (in particular no en-passant); concretely, the e2 pawn of the
starting position yields exactly e3 and e4, and a pawn already on e3 yields
only e4. -/
theorem pawn_rule_spec :
    (∀ (b : Board) (sq : ChessSquare) (c : Color) (m : Move),
      m ∈ getPawnMoves b sq c ↔
        (presentEmptyAt b (fileIndexOf sq.file) (sq.rank + pawnDir c) ∧
          m = (filesGet (fileIndexOf sq.file), sq.rank + pawnDir c)) ∨
        (presentEmptyAt b (fileIndexOf sq.file) (sq.rank + pawnDir c) ∧
          sq.rank = pawnStartRank c ∧
          presentEmptyAt b (fileIndexOf sq.file) (sq.rank + 2 * pawnDir c) ∧
          m = (filesGet (fileIndexOf sq.file), sq.rank + 2 * pawnDir c)) ∨
        (∃ df : Int, (df = -1 ∨ df = 1) ∧ 0 ≤ fileIndexOf sq.file + df ∧
          fileIndexOf sq.file + df < 8 ∧
          enemyAt b c (fileIndexOf sq.file + df) (sq.rank + pawnDir c) ∧
          m = (filesGet (fileIndexOf sq.file + df), sq.rank + pawnDir c))) ∧
    getPossibleMoves startBoard
      (ChessSquare.mk 'e' 2 (some (ChessPiece.mk PieceType.pawn Color.white))) none =
      [('e', 3), ('e', 4)] ∧
    getPossibleMoves pawnE3Board
      (ChessSquare.mk 'e' 3 (some (ChessPiece.mk PieceType.pawn Color.white))) none =
      [('e', 4)] := by
  refine ⟨?_, by decide, by decide⟩
  intro b sq c m
  simp only [getPawnMoves, List.mem_append, List.mem_flatMap]
  constructor
  · rintro (h | h)
    · split at h
      · rename_i oneF hgs1
        split at h
        · rename_i hn1
          rcases List.mem_cons.mp h with rfl | h2
          · exact Or.inl ⟨⟨oneF, hgs1, hn1⟩, rfl⟩
          · split at h2
            · rename_i hstart
              split at h2
              · rename_i twoF hgs2
                split at h2
                · rename_i hn2
                  rcases List.mem_singleton.mp h2 with rfl
                  exact Or.inr (Or.inl ⟨⟨oneF, hgs1, hn1⟩, hstart, ⟨twoF, hgs2, hn2⟩, rfl⟩)
                · cases h2
              · cases h2
            · cases h2
        · cases h
      · cases h
    · obtain ⟨df, hdf, h⟩ := h
      split at h
      · rename_i hbd
        split at h
        · rename_i diag hgs
          split at h
          · rename_i p hpc
            split at h
            · rename_i hcol
              rcases List.mem_singleton.mp h with rfl
              refine Or.inr (Or.inr ⟨df, List.mem_pair.mp hdf, hbd.1, hbd.2,
                ⟨diag, p, hgs, hpc, hcol⟩, rfl⟩)
            · cases h
          · cases h
        · cases h
      · cases h
  · rintro (⟨⟨oneF, hgs1, hn1⟩, rfl⟩ |
      ⟨⟨oneF, hgs1, hn1⟩, hstart, ⟨twoF, hgs2, hn2⟩, rfl⟩ |
      ⟨df, hdf, hb1, hb2, ⟨diag, p, hgs, hpc, hcol⟩, rfl⟩)
    · left
      simp only [hgs1, hn1, if_true]
      exact List.mem_cons_self _ _
    · left
      simp only [hgs1, hn1, if_true]
      rw [if_pos hstart]
      simp only [hgs2, hn2, if_true]
      exact List.mem_cons_of_mem _ (List.mem_singleton_self _)
    · right
      refine ⟨df, List.mem_pair.mpr hdf, ?_⟩
      rw [if_pos ⟨hb1, hb2⟩]
      simp only [hgs, hpc]
      rw [if_pos hcol]
      exact List.mem_singleton_self _

/-- C9: the generator is a total function of the embedding and returns the
empty list when the origin square holds no piece. -/
theorem generator_empty_origin :
    ∀ (b : Board) (sq : ChessSquare) (fen : Option String),
      sq.piece = none → getPossibleMoves b sq fen = [] := by
  intro b sq fen h
  simp [getPossibleMoves, h]

/-- Witness for C9 at an empty square of the starting position. -/
theorem generator_empty_origin_witness :
    getPossibleMoves startBoard (ChessSquare.mk 'a' 5 none) none = [] :=
  generator_empty_origin startBoard (ChessSquare.mk 'a' 5 none) none rfl

lemma getPossibleMoves_no_fen (b : Board) (sq : ChessSquare) :
    getPossibleMoves b sq none = movesNoCastle b sq := by
  obtain ⟨f, r, pc⟩ := sq
  cases pc with
  | none => rfl
  | some p =>
    cases p.type <;> simp [getPossibleMoves, movesNoCastle, getKingMoves]

/-- C8: the attack scan invokes the move rules with castling excluded — the
fen-less generator's king case is exactly the 8-adjacent-square rule, and
`isAttacked` scans with exactly that fen-less generator, so the recursion
between the attack predicate and the castling rule is broken (the embedding
is stratified accordingly and is total by construction). -/
theorem attack_scan_excludes_castling :
    (∀ (b : Board) (f : Char) (r : Int) (c : Color),
      getPossibleMoves b (ChessSquare.mk f r (some (ChessPiece.mk PieceType.king c))) none =
        kingAdjacentMoves b (ChessSquare.mk f r (some (ChessPiece.mk PieceType.king c))) c) ∧
    (∀ (b : Board) (file : Char) (rank : Int) (byColor : Color),
      isAttacked b file rank byColor =
        (b.flatten.any fun sq =>
          match sq.piece with
          | some p =>
            if p.color = byColor then (getPossibleMoves b sq none).contains (file, rank)
            else false
          | none => false)) := by
  constructor
  · intro b f r c
    simp [getPossibleMoves, getKingMoves]
  · intro b file rank byColor
    unfold isAttacked
    congr 1
    funext sq
    rw [getPossibleMoves_no_fen b sq]

/-- C10: a square directly in front of an enemy pawn counts as attacked: on
a board holding only a black pawn on e2, e1 is reported attacked by black,
because the scan tests membership in the pawn's full move list, which is
exactly the forward (non-capture) move to the empty square e1. -/
theorem pawn_forward_counts_as_attack :
    isAttacked blackPawnE2Board 'e' 1 Color.black = true ∧
    getPossibleMoves blackPawnE2Board
      (ChessSquare.mk 'e' 2 (some (ChessPiece.mk PieceType.pawn Color.black))) none =
      [('e', 1)] ∧
    isEmptyB blackPawnE2Board 'e' 1 = true := by
  decide

set_option maxHeartbeats 1000000 in
/-- C6: with a black rook on e8 and an otherwise empty board, e1 is attacked
by black; placing any single white piece on any of e2..e7 blocks the ray and
e1 is no longer attacked. -/
theorem rook_attack_and_blocking :
    isAttacked rookE8Board 'e' 1 Color.black = true ∧
    (∀ (t : PieceType) (r : Fin 6),
      isAttacked (setPieceAt rookE8Board 'e' ((r : Int) + 2)
        (some (ChessPiece.mk t Color.white))) 'e' 1 Color.black = false) := by
  decide

/-- A position-exchange string with only 5 whitespace fields. -/
def fiveFieldFen : String := "rnbqkbnr/pppppppp/8/8/8/8/PPPPPPPP/RNBQKBNR w KQkq - 0"

/-- C2 counterexample: decoding the 5-field string does not fail — it
produces the same fully populated 8×8 board as the well-formed 6-field
starting string (the codec has no error outcome at all). -/
theorem five_field_decode_succeeds :
    parseFEN fiveFieldFen = startBoard ∧
    (parseFEN fiveFieldFen).map List.length = [8, 8, 8, 8, 8, 8, 8, 8] := by
  decide

/-- C2 amended: `parseFEN` reads only the first whitespace field, so any two
strings with the same first field decode identically; in particular the
5-field string yields, without any error signal, a valid fully-populated
board. -/
theorem parseFEN_ignores_trailing_fields :
    (∀ fen₁ fen₂ : String,
      (splitChar ' ' fen₁.data).headD [] = (splitChar ' ' fen₂.data).headD [] →
      parseFEN fen₁ = parseFEN fen₂) ∧
    validBoard (parseFEN fiveFieldFen) := by
  constructor
  · intro fen₁ fen₂ h
    unfold parseFEN
    rw [h]
  · decide

/-- Witness for the amended C2: the 5-field string decodes like the 6-field
starting string. -/
theorem parseFEN_ignores_trailing_fields_witness :
    parseFEN fiveFieldFen = parseFEN startFen :=
  parseFEN_ignores_trailing_fields.1 fiveFieldFen startFen (by decide)

lemma stepTarget_shape {b : Board} {c : Color} {f r : Int} {m : Move}
    (h : m ∈ stepTarget b c f r) : m = (filesGet f, r) := by
  unfold stepTarget at h
  split at h
  · split at h
    · cases h
    · split at h
      · exact List.mem_singleton.mp h
      · split at h
        · exact List.mem_singleton.mp h
        · cases h
  · cases h

/-- C4: for a white king on e1, with f1 and g1 empty and e1/f1/g1 not
attacked by black, g1 is a destination iff the FEN's third field contains
'K'. -/
theorem kingside_castling_right :
    ∀ (b : Board) (sq : ChessSquare) (fen : String),
      sq.file = 'e' → sq.rank = 1 →
      sq.piece = some (ChessPiece.mk PieceType.king Color.white) →
      isEmptyB b 'f' 1 = true → isEmptyB b 'g' 1 = true →
      isAttacked b 'e' 1 Color.black = false →
      isAttacked b 'f' 1 Color.black = false →
      isAttacked b 'g' 1 Color.black = false →
      ((((splitChar ' ' fen.data).getD 2 []).contains 'K' = true →
          ('g', 1) ∈ getPossibleMoves b sq (some fen)) ∧
        (((splitChar ' ' fen.data).getD 2 []).contains 'K' = false →
          ('g', 1) ∉ getPossibleMoves b sq (some fen))) := by
  intro b sq fen hf hr hp he1 he2 ha1 ha2 ha3
  obtain ⟨sf, sr, sp⟩ := sq
  simp only at hf hr hp
  subst hf
  subst hr
  subst hp
  simp only [getPossibleMoves]
  constructor
  · intro hK
    have hne : ¬ fen.data = [] := by
      intro hnil
      rw [hnil] at hK
      simp [splitChar] at hK
    simp only [getKingMoves]
    rw [List.mem_append]
    right
    rw [if_neg hne]
    have hK' : 'K' ∈ (splitChar ' ' fen.data)[2]?.getD [] := by simpa using hK
    simp [getCastlingMoves, hK', he1, he2, ha1, ha2, ha3]
  · intro hK hmem
    simp only [getKingMoves, List.mem_append] at hmem
    rcases hmem with hadj | hcas
    · simp only [kingAdjacentMoves] at hadj
      rw [List.mem_flatMap] at hadj
      obtain ⟨df, hdf, hadj⟩ := hadj
      rw [List.mem_flatMap] at hadj
      obtain ⟨dr, hdr, hadj⟩ := hadj
      split at hadj
      · cases hadj
      · have hshape := stepTarget_shape hadj
        have h1 := congrArg Prod.fst hshape
        simp only at h1
        rcases List.mem_cons.mp hdf with rfl | hdf'
        · exact absurd h1 (by decide)
        rcases List.mem_cons.mp hdf' with rfl | hdf''
        · exact absurd h1 (by decide)
        rcases List.mem_cons.mp hdf'' with rfl | hdf'''
        · exact absurd h1 (by decide)
        · cases hdf'''
    · split at hcas
      · cases hcas
      · have hK' : ¬ 'K' ∈ (splitChar ' ' fen.data)[2]?.getD [] := by simpa using hK
        simp [getCastlingMoves, hK'] at hcas

/-- The castling scenario: white king e1, white rook h1, black king e8. -/
def castleFenK : String := "4k3/8/8/8/8/8/8/4K2R w K - 0 1"

def castleFenNoK : String := "4k3/8/8/8/8/8/8/4K2R w - - 0 1"

def castleBoard : Board := parseFEN castleFenK

/-- Witness for C4: in the concrete scenario g1 is offered with the 'K'
right and not offered without it. -/
theorem kingside_castling_right_witness :
    ('g', 1) ∈ getPossibleMoves castleBoard
      (ChessSquare.mk 'e' 1 (some (ChessPiece.mk PieceType.king Color.white)))
      (some castleFenK) ∧
    ('g', 1) ∉ getPossibleMoves castleBoard
      (ChessSquare.mk 'e' 1 (some (ChessPiece.mk PieceType.king Color.white)))
      (some castleFenNoK) :=
  ⟨(kingside_castling_right castleBoard
      (ChessSquare.mk 'e' 1 (some (ChessPiece.mk PieceType.king Color.white))) castleFenK
      rfl rfl rfl (by decide) (by decide) (by decide) (by decide) (by decide)).1 (by decide),
   (kingside_castling_right castleBoard
      (ChessSquare.mk 'e' 1 (some (ChessPiece.mk PieceType.king Color.white))) castleFenNoK
      rfl rfl rfl (by decide) (by decide) (by decide) (by decide) (by decide)).2 (by decide)⟩

end Chess
